import Mathlib

/-!
Verification of the media-log ingestor pipeline (extraction, deduplication,
user-index build, enrichment, batching, rate-limited delivery and durable
failure capture), shallowly embedded from `src/parser.js`, `src/ingestor.js`
and `src/cli.js`.  Strings are modelled as Lean `String`/`List Char`; the
JavaScript regex scans are embedded as executable scanners implementing the
(deterministic) leftmost-match/global-exec semantics of the four fixed
patterns; network and file I/O are modelled by explicit response streams and
an explicit failure-file state.
-/

namespace MediaLogIngestor

/-! ## JavaScript string primitives -/

/-- Characters matched by the JavaScript regex class `\s` (White_Space plus
BOM): the ASCII whitespace characters together with NBSP, Ogham space mark,
the Unicode space separators, the line/paragraph separators and FEFF. -/
def isJsWs (c : Char) : Bool :=
  c = ' ' || c = '\t' || c = '\n' || c = '\r' || c.val == 0x0b || c.val == 0x0c ||
  c.val == 0xa0 || c.val == 0x1680 || (0x2000 ≤ c.val && c.val ≤ 0x200a) ||
  c.val == 0x2028 || c.val == 0x2029 || c.val == 0x202f || c.val == 0x205f ||
  c.val == 0x3000 || c.val == 0xfeff

/-- JavaScript LineTerminator characters: `\n`, `\r`, U+2028, U+2029.  These
are the characters `.` does not match, `$` (multiline) matches before, and
`^` (multiline) matches after. -/
def isLineTerm (c : Char) : Bool :=
  c = '\n' || c = '\r' || c.val == 0x2028 || c.val == 0x2029

/-- Embeds `String.prototype.trim`: strip leading and trailing `\s`. -/
def jsTrimList (l : List Char) : List Char :=
  ((l.dropWhile isJsWs).reverse.dropWhile isJsWs).reverse

/-- Embeds `String.prototype.trim` on `String`. -/
def jsTrim (s : String) : String := String.mk (jsTrimList s.data)

/-- Embeds `String.prototype.toLowerCase` (ASCII range, which is all the fixed
extension tables use). -/
def jsToLower (s : String) : String := String.mk (s.data.map Char.toLower)

/-- Embeds `String.prototype.includes(needle)`: the needle occurs as a
contiguous substring anywhere in the haystack. -/
def hasSub (needle : List Char) : List Char → Bool
  | [] => needle.isPrefixOf []
  | c :: t => needle.isPrefixOf (c :: t) || hasSub needle t

/-- JavaScript truthiness of an optional string value (`undefined` and the
empty string are falsy). -/
def truthyS : Option String → Bool
  | some s => !(s == "")
  | none => false

/-! ## Markdown scanners (src/parser.js:6-9)

The four regex constants of `parser.js`:
```
MARKDOWN_IMAGE_INLINE_REGEX    = /!\[([^\]]*)\]\(([^\s"')]+)(?:\s+"([^"]+)")?\)/g
MARKDOWN_IMAGE_REFERENCE_REGEX = /!\[([^\]]*)\]\[([^\]]+)\]/g
MARKDOWN_REFERENCE_DEFINITION_REGEX = /^\[([^\]]+)\]:\s*([^\s"]+)(?:\s+"([^"]+)")?$/gm
MARKDOWN_LINK_REGEX            = /\[([^\]]*)\]\(([^\s"')]+)(?:\s+"([^"]+)")?\)/g
```
Each pattern is backtracking-free in the following sense: every quantified
class excludes the character the pattern requires next, so the greedy take is
the only possible one, and the optional title group either matches maximally
or is skipped.  The scanners below implement exactly that, together with the
global-exec discipline (failed attempts advance one character, successful
matches resume after the match). -/

/-- Characters allowed in the url capture `[^\s"')]+`. -/
def isUrlChar (c : Char) : Bool := !isJsWs c && c ≠ '"' && c ≠ '\'' && c ≠ ')'

/-- The tail `(url "title")` shared by the inline-image and plain-link
patterns, attempted after the literal `](`.  Returns the captures
(bracket text, url, optional title) and the text after the match. -/
def matchParenTail (text : String) (r2 : List Char) :
    Option ((String × String × Option String) × List Char) :=
  let url := r2.takeWhile isUrlChar
  if url.isEmpty then none else
  let r3 := r2.drop url.length
  let ws := r3.takeWhile isJsWs
  let afterWs := r3.drop ws.length
  let titled : Option (String × List Char) :=
    if ws.isEmpty then none else
    match afterWs with
    | '"' :: r4 =>
      let t := r4.takeWhile (fun c => c ≠ '"')
      if t.isEmpty then none else
      match r4.drop t.length with
      | '"' :: r5 => some (String.mk t, r5)
      | _ => none
    | _ => none
  match titled with
  | some (t, r5) =>
    match r5 with
    | ')' :: rest => some ((text, String.mk url, some t), rest)
    | _ => none
  | none =>
    if ws.isEmpty then
      match r3 with
      | ')' :: rest => some ((text, String.mk url, none), rest)
      | _ => none
    else none

/-- One attempt of `MARKDOWN_IMAGE_INLINE_REGEX` anchored at the start of the
input; captures are (alt text, url, optional title). -/
def matchInlineImageAt : List Char → Option ((String × String × Option String) × List Char)
  | '!' :: '[' :: r1 =>
    let alt := r1.takeWhile (fun c => c ≠ ']')
    (match r1.drop alt.length with
     | ']' :: '(' :: r2 => matchParenTail (String.mk alt) r2
     | _ => none)
  | _ => none

/-- One attempt of `MARKDOWN_LINK_REGEX` anchored at the start of the input;
captures are (link text, url, optional title). -/
def matchLinkAt : List Char → Option ((String × String × Option String) × List Char)
  | '[' :: r1 =>
    let text := r1.takeWhile (fun c => c ≠ ']')
    (match r1.drop text.length with
     | ']' :: '(' :: r2 => matchParenTail (String.mk text) r2
     | _ => none)
  | _ => none

/-- One attempt of `MARKDOWN_IMAGE_REFERENCE_REGEX` anchored at the start of
the input; captures are (alt text, reference id). -/
def matchRefImageAt : List Char → Option ((String × String) × List Char)
  | '!' :: '[' :: r1 =>
    let alt := r1.takeWhile (fun c => c ≠ ']')
    (match r1.drop alt.length with
     | ']' :: '[' :: r2 =>
       let id := r2.takeWhile (fun c => c ≠ ']')
       if id.isEmpty then none else
       (match r2.drop id.length with
        | ']' :: rest => some ((String.mk alt, String.mk id), rest)
        | _ => none)
     | _ => none)
  | _ => none

/-- Global-exec driver for the unanchored patterns: at each position try the
matcher; on success emit the captures and resume after the match, on failure
advance one character.  The fuel is the input length plus one, which the
drivers below always supply; every match consumes at least one character, so
the fuel never runs out before the input does. -/
def scanWith (step : List Char → Option (α × List Char)) : Nat → List Char → List α
  | 0, _ => []
  | _, [] => []
  | Nat.succ f, s =>
    match step s with
    | some (cap, rest) => cap :: scanWith step f rest
    | none =>
      match s with
      | [] => []
      | _ :: t => scanWith step f t

/-- All matches of `MARKDOWN_IMAGE_INLINE_REGEX` in document order. -/
def scanInlineImages (md : List Char) : List (String × String × Option String) :=
  scanWith matchInlineImageAt (md.length + 1) md

/-- All matches of `MARKDOWN_IMAGE_REFERENCE_REGEX` in document order. -/
def scanRefImages (md : List Char) : List (String × String) :=
  scanWith matchRefImageAt (md.length + 1) md

/-- All matches of `MARKDOWN_LINK_REGEX` in document order. -/
def scanLinks (md : List Char) : List (String × String × Option String) :=
  scanWith matchLinkAt (md.length + 1) md

/-- Whether the current position is a multiline `$` position: end of input or
just before a line terminator. -/
def atLineEnd : List Char → Bool
  | [] => true
  | c :: _ => isLineTerm c

/-- One attempt of `MARKDOWN_REFERENCE_DEFINITION_REGEX` at a line-start
position; captures are (id, url, optional title).  The optional title group
is tried greedily; if the group matches but the line does not end there the
engine falls back to the title-less parse, which succeeds exactly when the
whitespace run after the url starts with a line terminator. -/
def matchRefDefAt (s : List Char) : Option ((String × String × Option String) × List Char) :=
  match s with
  | '[' :: r1 =>
    let id := r1.takeWhile (fun c => c ≠ ']')
    if id.isEmpty then none else
    (match r1.drop id.length with
     | ']' :: ':' :: r2 =>
       let ws := r2.takeWhile isJsWs
       let r3 := r2.drop ws.length
       let url := r3.takeWhile (fun c => !isJsWs c && c ≠ '"')
       if url.isEmpty then none else
       let r4 := r3.drop url.length
       let ws2 := r4.takeWhile isJsWs
       let r5 := r4.drop ws2.length
       let titled : Option (String × List Char) :=
         if ws2.isEmpty then none else
         match r5 with
         | '"' :: r6 =>
           let t := r6.takeWhile (fun c => c ≠ '"')
           if t.isEmpty then none else
           (match r6.drop t.length with
            | '"' :: r7 => some (String.mk t, r7)
            | _ => none)
         | _ => none
       (match titled with
        | some (t, r7) =>
          if atLineEnd r7 then some ((String.mk id, String.mk url, some t), r7)
          else if atLineEnd r4 then some ((String.mk id, String.mk url, none), r4)
          else none
        | none =>
          if atLineEnd r4 then some ((String.mk id, String.mk url, none), r4) else none)
     | _ => none)
  | _ => none

/-- Global-exec driver for the `^...$` (multiline) definition pattern: the
boolean tracks whether the current position is a line start (start of input
or just after a line terminator).  A successful match always ends at a `$`
position, so scanning resumes with the flag down. -/
def scanRefDefsGo : Nat → List Char → Bool → List (String × String × Option String)
  | 0, _, _ => []
  | _, [], _ => []
  | Nat.succ f, s, atStart =>
    match s with
    | [] => []
    | c :: t =>
      if atStart then
        match matchRefDefAt s with
        | some (cap, rest) => cap :: scanRefDefsGo f rest false
        | none => scanRefDefsGo f t (isLineTerm c)
      else scanRefDefsGo f t (isLineTerm c)

/-- All matches of `MARKDOWN_REFERENCE_DEFINITION_REGEX` in document order. -/
def scanRefDefs (md : List Char) : List (String × String × Option String) :=
  scanRefDefsGo (md.length + 1) md true

/-! ## Extension tables and classification (src/parser.js:1-2, 11-17) -/

/-- Embeds `VIDEO_EXTENSIONS` (src/parser.js:1). -/
def videoExtensionList : List String := [".mp4", ".mov", ".webm", ".avi", ".m4v", ".mkv"]

/-- Embeds `DOC_EXTENSIONS` (src/parser.js:2). -/
def docExtensionList : List String := [".pdf", ".doc", ".docx", ".xls", ".xlsx", ".ppt", ".pptx", ".txt"]

/-- Embeds `isNonImageMedia` (src/parser.js:11-17): the lowercased url
contains a video or document extension as a substring. -/
def isNonImageMedia (url : String) : Bool :=
  let lowerUrl := jsToLower url
  videoExtensionList.any (fun e => hasSub e.data lowerUrl.data)
    || docExtensionList.any (fun e => hasSub e.data lowerUrl.data)

/-! ## Reference-definition index (src/parser.js:48-51)

The `references` Map: ids are lowercased at insertion, urls trimmed; `Map.set`
overwrites, so a lookup returns the value of the last definition whose
lowercased id equals the lowercased query id. -/

/-- The insertion sequence `references.set(refId.toLowerCase(), {url: url.trim(), title})`. -/
def refDefsIndex (md : List Char) : List (String × String × Option String) :=
  (scanRefDefs md).map (fun d => (jsToLower d.1, jsTrim d.2.1, d.2.2))

/-- Embeds `references.get(refId.toLowerCase())`: last insertion wins. -/
def lookupRefDef (defs : List (String × String × Option String)) (id : String) :
    Option (String × Option String) :=
  (defs.reverse.find? (fun d => d.1 == jsToLower id)).map (fun d => d.2)

/-! ## Extraction (src/parser.js:19-84)

`extractMediaReferences` runs the four scans in order; each call to `addMedia`
is one element of the request stream below (a `(path, altText)` pair), and the
emitted list is the fold of `addMedia` over that stream with the shared `seen`
set threaded through. -/

/-- Requests issued by the inline-image loop (src/parser.js:53-61): each match
with a truthy trimmed url yields `addMedia(url, title || altText)`.  A present
title capture is non-empty (`[^"]+`), so JS `||` picks it exactly when
present. -/
def inlineImageRequests (md : List Char) : List (String × String) :=
  (scanInlineImages md).filterMap (fun m =>
    if jsTrim m.2.1 = "" then none
    else some (m.2.1, m.2.2.getD m.1))

/-- Requests issued by the reference-image loop (src/parser.js:63-72): each
match whose id resolves in the definition index yields
`addMedia(reference.url, reference.title || altText)`. -/
def refImageRequests (md : List Char) : List (String × String) :=
  (scanRefImages md).filterMap (fun m =>
    (lookupRefDef (refDefsIndex md) m.2).map (fun r => (r.1, r.2.getD m.1)))

/-- Requests issued by the plain-link loop (src/parser.js:74-80): each match
whose url is non-image media yields `addMedia(url)` with the default empty
alt text. -/
def linkRequests (md : List Char) : List (String × String) :=
  (scanLinks md).filterMap (fun m =>
    if isNonImageMedia m.2.1 then some (m.2.1, "") else none)

/-- The full `addMedia` request stream of one `extractMediaReferences` call,
in execution order. -/
def extractionRequests (md : List Char) : List (String × String) :=
  inlineImageRequests md ++ refImageRequests md ++ linkRequests md

/-- Embeds the url built at src/parser.js:25:
`https://${ref}--${repo}--${org}.aem.page${sourcePath}`. -/
def sourceUrlFor (org repo ref sourcePath : String) : String :=
  "https://" ++ ref ++ "--" ++ repo ++ "--" ++ org ++ ".aem.page" ++ sourcePath

/-- One media-log record.  Fields are optional where the JavaScript object may
lack the property; `operation` is set by the deduplication pass (src/cli.js)
and `user` by the enrichment pass (src/ingestor.js). -/
structure MediaEntry where
  action : Option String := none
  owner : Option String := none
  repo : Option String := none
  operation : Option String := none
  path : String := ""
  sourcePath : Option String := none
  alt : Option String := none
  user : Option String := none
deriving DecidableEq

/-- The entry built by `addMedia` (src/parser.js:27-43): `action: 'add'`,
the raw path, the resolved source url, and `alt` only when the trimmed alt
text is non-empty. -/
def mkAddEntry (sourceUrl path altText : String) : MediaEntry :=
  { action := some "add", path := path, sourcePath := some sourceUrl,
    alt := if jsTrim altText = "" then none else some (jsTrim altText) }

/-- The fold of `addMedia` over the request stream with the `seen` set:
a request whose path was already seen is dropped, otherwise it emits one
entry and records the path. -/
def addMediaFold (sourceUrl : String) : List (String × String) → List String → List MediaEntry
  | [], _ => []
  | (p, a) :: rest, seen =>
    if p ∈ seen then addMediaFold sourceUrl rest seen
    else mkAddEntry sourceUrl p a :: addMediaFold sourceUrl rest (p :: seen)

/-- Embeds `extractMediaReferences` (src/parser.js:19-84). -/
def extractMediaReferences (markdown sourcePath org repo ref : String) : List MediaEntry :=
  addMediaFold (sourceUrlFor org repo ref sourcePath) (extractionRequests markdown.data) []

/-! ## Media hash and deduplication (src/parser.js:140-143, src/cli.js:334-358) -/

/-- Lowercase-hex digit, the class `[a-f0-9]`. -/
def isHexDigit (c : Char) : Bool := ('a' ≤ c && c ≤ 'f') || ('0' ≤ c && c ≤ '9')

/-- One attempt of `/media_([a-f0-9]+)\./` anchored at the start of the input. -/
def matchMediaHashAt (s : List Char) : Option (List Char) :=
  if ("media_".data).isPrefixOf s then
    let r := s.drop 6
    let hex := r.takeWhile isHexDigit
    if hex.isEmpty then none else
    match r.drop hex.length with
    | '.' :: _ => some hex
    | _ => none
  else none

/-- Leftmost match of `/media_([a-f0-9]+)\./`. -/
def findMediaHash : List Char → Option (List Char)
  | [] => none
  | c :: t =>
    match matchMediaHashAt (c :: t) with
    | some hex => some hex
    | none => findMediaHash t

/-- Embeds `extractMediaHash` (src/parser.js:140-143): the first capture of
`/media_([a-f0-9]+)\./` against the url, or null. -/
def extractMediaHash (url : String) : Option String :=
  (findMediaHash url.data).map String.mk

/-- The deduplication map body (src/cli.js:338-358) with the `seenHashes` set
threaded through: a record with a fresh or missing hash becomes `ingest`, a
record with an already-seen hash becomes `reuse`. -/
def dedupGo : List MediaEntry → List String → List MediaEntry
  | [], _ => []
  | e :: rest, seen =>
    match extractMediaHash e.path with
    | some h =>
      if h ∈ seen then { e with operation := some "reuse" } :: dedupGo rest seen
      else { e with operation := some "ingest" } :: dedupGo rest (h :: seen)
    | none => { e with operation := some "ingest" } :: dedupGo rest seen

/-- Embeds the deduplication pass of `runIngest` (src/cli.js:334-358). -/
def deduplicateEntries (entries : List MediaEntry) : List MediaEntry :=
  dedupGo entries []

/-! ## Batch partitioning (src/parser.js:86-92, src/cli.js:405) -/

/-- Embeds `batchEntries` (src/parser.js:86-92): the slice loop
`for (i = 0; i < n; i += batchSize) push(entries.slice(i, i + batchSize))`.
Faithful for `batchSize ≥ 1`; for batch size 0 the JavaScript loop does not
terminate, so every statement below assumes `1 ≤ batchSize`. -/
def batchEntries : List α → Nat → List (List α)
  | [], _ => []
  | x :: xs, bs => (x :: xs.take (bs - 1)) :: batchEntries (xs.drop (bs - 1)) bs
termination_by l => l.length
decreasing_by simp only [List.length_cons, List.length_drop]; omega

/-- Embeds the call site src/cli.js:405:
`batchEntries(allEntries, Math.min(batchSize, 10))`. -/
def clampedBatches (entries : List α) (batchSize : Nat) : List (List α) :=
  batchEntries entries (min batchSize 10)

/-! ## Batch submission with retry (src/ingestor.js:7-45)

The network is modelled by a response stream: the response the POST of
attempt `i` would receive.  Waits performed by `sleep(backoffMs)` are
recorded in milliseconds, in order. -/

/-- One HTTP response as `sendMediaLogBatch` inspects it: `ok`, `status`, and
the body text read on the error path. -/
structure HttpResponse where
  ok : Bool
  status : Nat
  text : String := ""
deriving DecidableEq

/-- The error message thrown at src/ingestor.js:40. -/
def sendErrorMessage (r : HttpResponse) : String :=
  "Media log API error: " ++ toString r.status ++ " - " ++ r.text

/-- How one call of `sendMediaLogBatch` ends: a success return, the dry-run
short-circuit, a thrown `Error` (carrying its message), or the unreachable
`return null` after the loop. -/
inductive SendOutcome where
  | sent (status : Nat)
  | sentDryRun
  | thrown (message : String)
  | nullReturn
deriving DecidableEq

/-- The observable behaviour of one `sendMediaLogBatch` call: the backoff
waits in order (milliseconds), the number of POSTs issued, the outcome. -/
structure SendTrace where
  waits : List Nat
  attempts : Nat
  outcome : SendOutcome
deriving DecidableEq

/-- The retry loop `for (attempt = 0; attempt <= maxRetries; attempt++)`
(src/ingestor.js:17-41), driven by the list of remaining attempt indices:
success returns; a 403/429 with attempts remaining waits `2^attempt * 1000`
ms and continues; anything else throws. -/
def sendGo (responses : Nat → HttpResponse) (maxRetries : Nat) :
    List Nat → List Nat → Nat → SendTrace
  | [], ws, n => ⟨ws.reverse, n, .nullReturn⟩
  | attempt :: rest, ws, n =>
    let r := responses attempt
    if r.ok then ⟨ws.reverse, n + 1, .sent r.status⟩
    else if (r.status = 403 ∨ r.status = 429) ∧ attempt < maxRetries then
      sendGo responses maxRetries rest (2 ^ attempt * 1000 :: ws) (n + 1)
    else ⟨ws.reverse, n + 1, .thrown (sendErrorMessage r)⟩

/-- Embeds `sendMediaLogBatch` (src/ingestor.js:7-45) over a response
stream.  Dry-run mode short-circuits to a synthetic success with no network
call. -/
def sendMediaLogBatch (responses : Nat → HttpResponse) (dryRun : Bool)
    (maxRetries : Nat := 3) : SendTrace :=
  if dryRun then ⟨[], 0, .sentDryRun⟩
  else sendGo responses maxRetries (List.range (maxRetries + 1)) [] 0

/-! ## Durable failure capture (src/ingestor.js:67-88) -/

/-- One record of the failure file: `{timestamp, error, entries}`. -/
structure FailureRecord where
  timestamp : String
  error : String
  entries : List MediaEntry
deriving DecidableEq

/-- The failure file's parsed content; `none` models an absent file (the
`ENOENT` branch reads it as the empty list). -/
def fileContents : Option (List FailureRecord) → List FailureRecord
  | some l => l
  | none => []

/-- Embeds `saveFailedBatch` (src/ingestor.js:67-88): read the existing
records (empty when the file is absent), append one record built from the
batch and the error message, and write the result back. -/
def saveFailedBatch (batch : List MediaEntry) (errMsg timestamp : String)
    (file : Option (List FailureRecord)) : List FailureRecord :=
  fileContents file ++ [⟨timestamp, errMsg, batch⟩]

/-! ## Sequential delivery loop (src/cli.js:428-448)

Per-batch network behaviour is a response stream indexed by batch number and
attempt; `timestampOf i` is the `new Date().toISOString()` value a failure of
batch `i` would record. -/

/-- Counters and failure-file state carried through the delivery loop. -/
structure DeliveryState where
  batchesSent : Nat
  errors : Nat
  file : Option (List FailureRecord)
deriving DecidableEq

/-- The loop body of src/cli.js:428-448, batch by batch: a thrown send is
caught, counted, and appended to the failure file; any other outcome counts
the batch as sent.  The loop always proceeds to the next batch. -/
def runDeliveryGo (responses : Nat → Nat → HttpResponse) (dryRun : Bool)
    (timestampOf : Nat → String) :
    List (List MediaEntry) → Nat → DeliveryState → DeliveryState
  | [], _, st => st
  | b :: rest, i, st =>
    match (sendMediaLogBatch (responses i) dryRun 3).outcome with
    | .thrown msg =>
      runDeliveryGo responses dryRun timestampOf rest (i + 1)
        { st with errors := st.errors + 1,
                  file := some (saveFailedBatch b msg (timestampOf i) st.file) }
    | _ =>
      runDeliveryGo responses dryRun timestampOf rest (i + 1)
        { st with batchesSent := st.batchesSent + 1 }

/-- Embeds the delivery phase of `runIngest` over a list of batches, an
initial failure-file state and fresh counters. -/
def runDelivery (responses : Nat → Nat → HttpResponse) (dryRun : Bool)
    (timestampOf : Nat → String) (batches : List (List MediaEntry))
    (file₀ : Option (List FailureRecord)) : DeliveryState :=
  runDeliveryGo responses dryRun timestampOf batches 0 ⟨0, 0, file₀⟩

/-- The failure records the delivery loop generates, in batch order: one per
batch whose send ends thrown. -/
def failedRecordsFrom (responses : Nat → Nat → HttpResponse) (dryRun : Bool)
    (timestampOf : Nat → String) : List (List MediaEntry) → Nat → List FailureRecord
  | [], _ => []
  | b :: rest, i =>
    match (sendMediaLogBatch (responses i) dryRun 3).outcome with
    | .thrown msg =>
      ⟨timestampOf i, msg, b⟩ :: failedRecordsFrom responses dryRun timestampOf rest (i + 1)
    | _ => failedRecordsFrom responses dryRun timestampOf rest (i + 1)

/-! ## Preview-user index (src/ingestor.js:99-195)

The paginated log read is modelled by the sequence of responses the
successive GETs would receive: a page either fails (non-ok status, or the
fetch itself throwing) or succeeds with its entries and an optional
`links.next` url. -/

/-- One event record of the log feed, with the three fields the builder
reads. -/
structure LogEvent where
  route : Option String := none
  path : Option String := none
  user : Option String := none
deriving DecidableEq

/-- One page fetch's result. -/
inductive PageResult where
  | ok (entries : List LogEvent) (next : Option String)
  | httpError (status : Nat)
  | transportError
deriving DecidableEq

/-- Lookup in the path→user index (`Map.get`); keys are inserted at most
once, so first match is the match. -/
def mapGet (m : List (String × String)) (p : String) : Option String :=
  (m.find? (fun kv => kv.1 == p)).map (fun kv => kv.2)

/-- The per-event insertion (src/ingestor.js:157-164): only a `preview` event
with truthy `path` and `user` is inserted, and only when the path is not yet
in the index. -/
def insertPreviewEvent (m : List (String × String)) (e : LogEvent) :
    List (String × String) :=
  match e.path, e.user with
  | some p, some u =>
    if e.route = some "preview" ∧ p ≠ "" ∧ u ≠ "" then
      if (mapGet m p).isSome then m else m ++ [(p, u)]
    else m
  | _, _ => m

/-- The pagination loop (src/ingestor.js:115-175): a failed page (non-ok
response, or the fetch throwing into the outer catch) stops with the index
accumulated so far; a successful page folds its entries in and continues
exactly when a `links.next` url is present. -/
def pagesFold : List PageResult → List (String × String) → List (String × String)
  | [], m => m
  | .ok es next :: rest, m =>
    (match next with
     | some _ => pagesFold rest (es.foldl insertPreviewEvent m)
     | none => es.foldl insertPreviewEvent m)
  | .httpError _ :: _, m => m
  | .transportError :: _, m => m

/-- Embeds `buildPreviewUserMap` (src/ingestor.js:99-195) over the page
response sequence. -/
def buildPreviewUserMap (pages : List PageResult) : List (String × String) :=
  pagesFold pages []

/-- The event records the pagination loop actually folds in: the pages up to
and including the last followed one, cut short by the first failure. -/
def processedEvents : List PageResult → List LogEvent
  | [] => []
  | .ok es (some _) :: rest => es ++ processedEvents rest
  | .ok es none :: _ => es
  | .httpError _ :: _ => []
  | .transportError :: _ => []

/-! ## Enrichment (src/ingestor.js:208-274) -/

/-- Leftmost match of `/\.aem\.page(\/.*?)$/` (src/ingestor.js:222): the
first occurrence of `.aem.page/` after which no line terminator follows (the
lazy `.*?` is stretched to the end of input by `$`, and `.` excludes line
terminators); the capture is everything from that `/` to the end. -/
def findAemPath : List Char → Option (List Char)
  | [] => none
  | c :: t =>
    if (".aem.page".data).isPrefixOf (c :: t) then
      match (c :: t).drop 9 with
      | '/' :: tail =>
        if tail.all (fun ch => !isLineTerm ch) then some ('/' :: tail)
        else findAemPath t
      | _ => findAemPath t
    else findAemPath t

/-- The url-to-site-path extraction on `String`. -/
def extractAemPath (s : String) : Option String :=
  (findAemPath s.data).map String.mk

/-- The per-entry enrichment body (src/ingestor.js:216-264): a truthy
`sourcePath` is matched against the host-suffix pattern and looked up in the
index; a truthy found user is assigned, else a truthy fallback, else the
entry is returned unchanged.  Entries without a (truthy) `sourcePath`, or
whose `sourcePath` does not match, go straight to the fallback choice. -/
def enrichEntry (userMap : List (String × String)) (fallbackUser : Option String)
    (e : MediaEntry) : MediaEntry :=
  let useFallback : MediaEntry :=
    if truthyS fallbackUser then { e with user := fallbackUser } else e
  match e.sourcePath with
  | some sp =>
    if sp = "" then useFallback
    else
      match extractAemPath sp with
      | some sitePath =>
        (match mapGet userMap sitePath with
         | some u => if u ≠ "" then { e with user := some u } else useFallback
         | none => useFallback)
      | none => useFallback
  | none => useFallback

/-- The `entries.map` of `enrichEntriesWithUser` over an arbitrary index. -/
def enrichWithMap (userMap : List (String × String)) (fallbackUser : Option String)
    (entries : List MediaEntry) : List MediaEntry :=
  entries.map (enrichEntry userMap fallbackUser)

/-- Embeds `enrichEntriesWithUser` (src/ingestor.js:208-274): build the
preview-user index from the log feed, then map the per-entry enrichment over
the entries. -/
def enrichEntriesWithUser (entries : List MediaEntry) (pages : List PageResult)
    (fallbackUser : Option String) : List MediaEntry :=
  enrichWithMap (buildPreviewUserMap pages) fallbackUser entries

/-! ## Theorems: batch partitioning (claim C6) -/

theorem batchEntries_cons (x : α) (xs : List α) (bs : Nat) (h : 1 ≤ bs) :
    batchEntries (x :: xs) bs = (x :: xs).take bs :: batchEntries ((x :: xs).drop bs) bs := by
  obtain ⟨b, rfl⟩ : ∃ b, bs = b + 1 := ⟨bs - 1, by omega⟩
  simp [batchEntries]

theorem batchEntries_length (l : List α) (bs : Nat) (h : 1 ≤ bs) :
    (batchEntries l bs).length = (l.length + bs - 1) / bs := by
  induction l, bs using batchEntries.induct with
  | case1 bs =>
    simp only [batchEntries, List.length_nil, Nat.zero_add]
    rw [Nat.div_eq_of_lt (by omega)]
  | case2 x xs bs ih =>
    rw [batchEntries]
    simp only [List.length_cons, List.length_drop] at ih ⊢
    rw [ih h]
    have hsum : xs.length + 1 + bs - 1 = xs.length + bs := by omega
    rw [hsum, Nat.add_div_right _ (by omega : 0 < bs)]
    rcases Nat.lt_or_ge xs.length (bs - 1) with hn | hn
    · have e1 : xs.length - (bs - 1) + bs - 1 = bs - 1 := by omega
      rw [e1, Nat.div_eq_of_lt (by omega), Nat.div_eq_of_lt (by omega)]
    · have e1 : xs.length - (bs - 1) + bs - 1 = xs.length := by omega
      rw [e1]

theorem batchEntries_getElem (l : List α) (bs : Nat) (h : 1 ≤ bs) :
    ∀ i : Nat, i < (batchEntries l bs).length →
      (batchEntries l bs)[i]? = some ((l.drop (i * bs)).take bs) := by
  induction l, bs using batchEntries.induct with
  | case1 bs => intro i hi; simp [batchEntries] at hi
  | case2 x xs bs ih =>
    intro i hi
    rw [batchEntries_cons x xs bs h] at hi ⊢
    match i with
    | 0 => simp
    | j + 1 =>
      rw [List.getElem?_cons_succ]
      have hd : (x :: xs).drop bs = xs.drop (bs - 1) := by
        obtain ⟨b, rfl⟩ : ∃ b, bs = b + 1 := ⟨bs - 1, by omega⟩
        simp [List.drop_succ_cons]
      rw [hd] at hi ⊢
      have hi' : j < (batchEntries (xs.drop (bs - 1)) bs).length := by
        simpa using hi
      rw [ih h j hi']
      have key : (xs.drop (bs - 1)).drop (j * bs) = (x :: xs).drop ((j + 1) * bs) := by
        rw [List.drop_drop]
        obtain ⟨b, rfl⟩ : ∃ b, bs = b + 1 := ⟨bs - 1, by omega⟩
        have hmul : (j + 1) * (b + 1) = (j * (b + 1) + b) + 1 := by ring
        rw [hmul, List.drop_succ_cons]
        congr 1
        omega
      rw [key]

theorem batchEntries_flatten (l : List α) (bs : Nat) (h : 1 ≤ bs) :
    (batchEntries l bs).flatten = l := by
  induction l, bs using batchEntries.induct with
  | case1 bs => simp [batchEntries]
  | case2 x xs bs ih =>
    rw [batchEntries]
    simp only [List.flatten_cons, List.cons_append, ih h, List.take_append_drop]

theorem batchEntries_dropLast_sizes (l : List α) (bs : Nat) (h : 1 ≤ bs) :
    ∀ c ∈ (batchEntries l bs).dropLast, c.length = bs := by
  induction l, bs using batchEntries.induct with
  | case1 bs => simp [batchEntries]
  | case2 x xs bs ih =>
    intro c hc
    rw [batchEntries] at hc
    rcases eq_or_ne (batchEntries (xs.drop (bs - 1)) bs) [] with hrest | hrest
    · rw [hrest] at hc
      simp at hc
    · rw [List.dropLast_cons_of_ne_nil hrest] at hc
      rcases List.mem_cons.mp hc with rfl | hc
      · have hxs : bs - 1 < xs.length := by
          by_contra hle
          have hnil : xs.drop (bs - 1) = [] := List.drop_eq_nil_of_le (by omega)
          rw [hnil] at hrest
          exact hrest (by simp [batchEntries])
        simp only [List.length_cons, List.length_take]
        omega
      · exact ih h c hc

/-- C6: for every record list and every configured batch size `B ≥ 1`, the
clamped partition `batchEntries(entries, min(B, 10))` produces exactly
`⌈N / Beff⌉` batches (`Beff = min B 10`), the `i`-th batch being
`entries.drop (i * Beff) |>.take Beff`, every non-final batch of size exactly
`Beff`, and the concatenation of the batches being the original list (so the
batches are ordered and the last holds the remainder). -/
theorem claim_C6_batch_partitioning (l : List α) (B : Nat) (hB : 1 ≤ B) :
    (clampedBatches l B).length = (l.length + min B 10 - 1) / min B 10 ∧
    (∀ i : Nat, i < (clampedBatches l B).length →
      (clampedBatches l B)[i]? = some ((l.drop (i * min B 10)).take (min B 10))) ∧
    (∀ c ∈ (clampedBatches l B).dropLast, c.length = min B 10) ∧
    (clampedBatches l B).flatten = l := by
  have h1 : 1 ≤ min B 10 := by omega
  exact ⟨batchEntries_length l _ h1, batchEntries_getElem l _ h1,
    batchEntries_dropLast_sizes l _ h1, batchEntries_flatten l _ h1⟩

/-- Witness for C6 at a concrete input: 7 records with configured batch size 3
yield 3 batches whose concatenation is the input. -/
theorem claim_C6_witness :
    (clampedBatches [0, 1, 2, 3, 4, 5, 6] 3).length = 3 ∧
    (clampedBatches [0, 1, 2, 3, 4, 5, 6] 3).flatten = [0, 1, 2, 3, 4, 5, 6] := by
  have h := claim_C6_batch_partitioning [0, 1, 2, 3, 4, 5, 6] 3 (by norm_num)
  exact ⟨h.1.trans (by norm_num), h.2.2.2⟩

/-! ## Theorems: bounded retry with exponential backoff (claim C1) -/

/-- C1: with `dryRun = false` and `maxRetries = 3`, `sendMediaLogBatch` is the
spec's retry state machine.  Concretely: (1) on a stream whose attempts 0 and
1 are rate-limit responses and whose attempt 2 succeeds, the call performs
exactly the two backoff waits 1000 ms and 2000 ms, issues 3 POSTs and returns
success; (2) on every response stream the call issues at most 4 POSTs (at
most 3 retries) and its waits are exactly `2^i * 1000` ms for
`i = 0, 1, ...`; (3) a delivery step whose send ends in success appends
nothing to the failure file. -/
theorem claim_C1_send_retry_machine (responses : Nat → HttpResponse)
    (h0 : (responses 0).ok = false)
    (h0s : (responses 0).status = 403 ∨ (responses 0).status = 429)
    (h1 : (responses 1).ok = false)
    (h1s : (responses 1).status = 403 ∨ (responses 1).status = 429)
    (h2 : (responses 2).ok = true) :
    sendMediaLogBatch responses false 3 = ⟨[1000, 2000], 3, .sent (responses 2).status⟩ ∧
    (∀ g : Nat → HttpResponse,
      (sendMediaLogBatch g false 3).attempts ≤ 4 ∧
      (sendMediaLogBatch g false 3).waits.length ≤ 3 ∧
      (sendMediaLogBatch g false 3).waits =
        (List.range (sendMediaLogBatch g false 3).waits.length).map (fun i => 2 ^ i * 1000)) ∧
    (∀ (b : List MediaEntry) (ts : String) (file : Option (List FailureRecord)),
      runDeliveryGo (fun _ => responses) false (fun _ => ts) [b] 0 ⟨0, 0, file⟩ =
        ⟨1, 0, file⟩) := by
  have main : sendMediaLogBatch responses false 3 =
      ⟨[1000, 2000], 3, .sent (responses 2).status⟩ := by
    rcases h0s with h0s | h0s <;> rcases h1s with h1s | h1s <;>
      norm_num [sendMediaLogBatch, sendGo, h0, h1, h2, h0s, h1s, List.range_succ]
  refine ⟨main, ?_, ?_⟩
  · intro g
    by_cases k0 : (g 0).ok
    · norm_num [sendMediaLogBatch, sendGo, k0, List.range_succ]
    · by_cases c0 : (g 0).status = 403 ∨ (g 0).status = 429
      · by_cases k1 : (g 1).ok
        · norm_num [sendMediaLogBatch, sendGo, k0, c0, k1, List.range_succ]
        · by_cases c1 : (g 1).status = 403 ∨ (g 1).status = 429
          · by_cases k2 : (g 2).ok
            · norm_num [sendMediaLogBatch, sendGo, k0, c0, k1, c1, k2, List.range_succ]
            · by_cases c2 : (g 2).status = 403 ∨ (g 2).status = 429
              · by_cases k3 : (g 3).ok
                · norm_num [sendMediaLogBatch, sendGo, k0, c0, k1, c1, k2, c2, k3,
                    List.range_succ]
                · norm_num [sendMediaLogBatch, sendGo, k0, c0, k1, c1, k2, c2, k3,
                    List.range_succ]
              · norm_num [sendMediaLogBatch, sendGo, k0, c0, k1, c1, k2, c2,
                  List.range_succ]
          · norm_num [sendMediaLogBatch, sendGo, k0, c0, k1, c1, List.range_succ]
      · norm_num [sendMediaLogBatch, sendGo, k0, c0, List.range_succ]
  · intro b ts file
    simp [runDeliveryGo, main]

/-- Response stream for the C1 witness: 429, then 403, then success 201. -/
def c1Responses : Nat → HttpResponse
  | 0 => ⟨false, 429, ""⟩
  | 1 => ⟨false, 403, ""⟩
  | _ => ⟨true, 201, ""⟩

/-- Witness for C1 at a concrete response stream: two waits (1s, 2s), three
attempts, success. -/
theorem claim_C1_witness :
    sendMediaLogBatch c1Responses false 3 = ⟨[1000, 2000], 3, .sent 201⟩ := by
  have h := (claim_C1_send_retry_machine c1Responses rfl (Or.inr rfl) rfl
    (Or.inl rfl) rfl).1
  exact h.trans rfl

/-! ## Theorems: durable failure capture in the delivery loop (claim C7) -/

theorem runDeliveryGo_spec (responses : Nat → Nat → HttpResponse) (dryRun : Bool)
    (timestampOf : Nat → String) :
    ∀ (batches : List (List MediaEntry)) (i : Nat) (st : DeliveryState),
      fileContents (runDeliveryGo responses dryRun timestampOf batches i st).file =
        fileContents st.file ++ failedRecordsFrom responses dryRun timestampOf batches i ∧
      (runDeliveryGo responses dryRun timestampOf batches i st).batchesSent +
          (runDeliveryGo responses dryRun timestampOf batches i st).errors =
        st.batchesSent + st.errors + batches.length := by
  intro batches
  induction batches with
  | nil => intro i st; simp [runDeliveryGo, failedRecordsFrom]
  | cons b rest ih =>
    intro i st
    cases houtcome : (sendMediaLogBatch (responses i) dryRun 3).outcome with
    | thrown msg =>
      have h1 := ih (i + 1)
        ⟨st.batchesSent, st.errors + 1, some (saveFailedBatch b msg (timestampOf i) st.file)⟩
      simp only [runDeliveryGo, failedRecordsFrom, houtcome]
      refine ⟨?_, ?_⟩
      · rw [h1.1]
        simp [saveFailedBatch, fileContents]
      · have h2 := h1.2
        dsimp only at h2
        simp only [List.length_cons]
        omega
    | sent s =>
      have h1 := ih (i + 1) ⟨st.batchesSent + 1, st.errors, st.file⟩
      simp only [runDeliveryGo, failedRecordsFrom, houtcome]
      refine ⟨h1.1, ?_⟩
      have h2 := h1.2
      dsimp only at h2
      simp only [List.length_cons]
      omega
    | sentDryRun =>
      have h1 := ih (i + 1) ⟨st.batchesSent + 1, st.errors, st.file⟩
      simp only [runDeliveryGo, failedRecordsFrom, houtcome]
      refine ⟨h1.1, ?_⟩
      have h2 := h1.2
      dsimp only at h2
      simp only [List.length_cons]
      omega
    | nullReturn =>
      have h1 := ih (i + 1) ⟨st.batchesSent + 1, st.errors, st.file⟩
      simp only [runDeliveryGo, failedRecordsFrom, houtcome]
      refine ⟨h1.1, ?_⟩
      have h2 := h1.2
      dsimp only at h2
      simp only [List.length_cons]
      omega

/-- C7: over any batch list, response behaviour and initial failure-file
state, the delivery loop ends with the failure file holding exactly the
initial records followed by one record per terminally-failed batch (in batch
order, each holding that batch's content and terminal error message, per
`failedRecordsFrom`); the initial content is never truncated; and every batch
is processed — sent and errored batches together exhaust the list, so no
terminal failure aborts the run. -/
theorem claim_C7_durable_failure_capture (responses : Nat → Nat → HttpResponse)
    (dryRun : Bool) (timestampOf : Nat → String) (batches : List (List MediaEntry))
    (file₀ : Option (List FailureRecord)) :
    fileContents (runDelivery responses dryRun timestampOf batches file₀).file =
      fileContents file₀ ++ failedRecordsFrom responses dryRun timestampOf batches 0 ∧
    (runDelivery responses dryRun timestampOf batches file₀).batchesSent +
        (runDelivery responses dryRun timestampOf batches file₀).errors =
      batches.length := by
  have h := runDeliveryGo_spec responses dryRun timestampOf batches 0 ⟨0, 0, file₀⟩
  exact ⟨h.1, by have := h.2; simpa using this⟩

/-! ## Theorems: frame preservation of deduplication and enrichment (claim C10) -/

/-- Forgets the one field the deduplication pass sets. -/
def clearOperation (e : MediaEntry) : MediaEntry := { e with operation := none }

/-- Forgets the one field the enrichment pass sets. -/
def clearUser (e : MediaEntry) : MediaEntry := { e with user := none }

theorem dedupGo_map_clearOperation (entries : List MediaEntry) :
    ∀ seen, (dedupGo entries seen).map clearOperation = entries.map clearOperation := by
  induction entries with
  | nil => intro seen; simp [dedupGo]
  | cons e rest ih =>
    intro seen
    cases hh : extractMediaHash e.path with
    | some h => by_cases hmem : h ∈ seen <;> simp [dedupGo, hh, hmem, ih, clearOperation]
    | none => simp [dedupGo, hh, ih, clearOperation]

theorem clearUser_enrichEntry (m : List (String × String)) (fb : Option String)
    (e : MediaEntry) : clearUser (enrichEntry m fb e) = clearUser e := by
  obtain ⟨ac, ow, rp, op, pa, spq, al, us⟩ := e
  simp only [enrichEntry]
  rcases spq with _ | sp
  · split_ifs <;> rfl
  · by_cases hempty : sp = ""
    · simp only [if_pos hempty]
      split_ifs <;> rfl
    · simp only [if_neg hempty]
      rcases hext : extractAemPath sp with _ | sitePath <;> simp only [hext]
      · split_ifs <;> rfl
      · rcases hget : mapGet m sitePath with _ | u <;> simp only [hget]
        · split_ifs <;> rfl
        · split_ifs <;> rfl

/-- C10: deduplication and enrichment are length- and order-preserving
per-record maps: erasing the single field each pass sets (`operation` for
deduplication, `user` for enrichment) makes output and input lists equal, so
each output record agrees with its input record on every other field, in
order. -/
theorem claim_C10_frame_preservation (entries : List MediaEntry)
    (userMap : List (String × String)) (fallbackUser : Option String) :
    (deduplicateEntries entries).length = entries.length ∧
    (deduplicateEntries entries).map clearOperation = entries.map clearOperation ∧
    (enrichWithMap userMap fallbackUser entries).length = entries.length ∧
    (enrichWithMap userMap fallbackUser entries).map clearUser = entries.map clearUser := by
  refine ⟨?_, dedupGo_map_clearOperation entries [], ?_, ?_⟩
  · have h := congrArg List.length (dedupGo_map_clearOperation entries [])
    simpa [deduplicateEntries] using h
  · simp [enrichWithMap]
  · simp [enrichWithMap, List.map_map, Function.comp_def, clearUser_enrichEntry]

/-! ## Theorems: preview-user index (claim C4) -/

/-- Qualifying events for index key `p`: route classified `preview`, path
present and equal to `p` (non-empty), user present and non-empty. -/
def isPreviewFor (p : String) (e : LogEvent) : Bool :=
  decide (e.route = some "preview" ∧ e.path = some p ∧ p ≠ "" ∧ truthyS e.user = true)

theorem mapGet_cons (k v : String) (m : List (String × String)) (p : String) :
    mapGet ((k, v) :: m) p = if k == p then some v else mapGet m p := by
  by_cases h : k == p <;> simp [mapGet, List.find?_cons, h]

theorem mapGet_append (m₁ m₂ : List (String × String)) (p : String) :
    mapGet (m₁ ++ m₂) p =
      (match mapGet m₁ p with
       | some u => some u
       | none => mapGet m₂ p) := by
  induction m₁ with
  | nil => simp [mapGet]
  | cons kv m ih =>
    obtain ⟨k, v⟩ := kv
    by_cases h : k == p <;> simp [List.cons_append, mapGet_cons, h, ih]

theorem mapGet_insertPreviewEvent (m : List (String × String)) (e : LogEvent) (p : String) :
    mapGet (insertPreviewEvent m e) p =
      if isPreviewFor p e = true ∧ mapGet m p = none then e.user else mapGet m p := by
  obtain ⟨ro, pa, us⟩ := e
  rcases pa with _ | q
  · simp [insertPreviewEvent, isPreviewFor]
  rcases us with _ | u
  · simp [insertPreviewEvent, isPreviewFor, truthyS]
  simp only [insertPreviewEvent]
  by_cases hcond : ro = some "preview" ∧ q ≠ "" ∧ u ≠ ""
  · rw [if_pos hcond]
    rcases hq : mapGet m q with _ | w
    · rw [if_neg (by simp [hq])]
      by_cases hpq : q = p
      · subst hpq
        have hprev : isPreviewFor q ⟨ro, some q, some u⟩ = true := by
          simp [isPreviewFor, truthyS, hcond.1, hcond.2.1, hcond.2.2]
        rw [mapGet_append]
        simp [hprev, hq, mapGet_cons]
      · have hprev : isPreviewFor p ⟨ro, some q, some u⟩ = false := by
          simp only [isPreviewFor, decide_eq_false_iff_not]
          rintro ⟨-, hqp, -, -⟩
          exact hpq (by injection hqp)
        rw [mapGet_append]
        rcases hp : mapGet m p with _ | w'
        · simp [hprev, mapGet_cons, hpq, hp, mapGet]
        · simp [hprev, hp]
    · by_cases hpq : q = p
      · subst hpq
        simp [hq]
      · have hprev : isPreviewFor p ⟨ro, some q, some u⟩ = false := by
          simp only [isPreviewFor, decide_eq_false_iff_not]
          rintro ⟨-, hqp, -, -⟩
          exact hpq (by injection hqp)
        simp [hq, hprev]
  · rw [if_neg hcond]
    have hprev : isPreviewFor p ⟨ro, some q, some u⟩ = false := by
      simp only [isPreviewFor, decide_eq_false_iff_not, truthyS]
      rintro ⟨h1, hqp, h3, h4⟩
      have hq : q = p := by injection hqp
      subst hq
      exact hcond ⟨h1, h3, by simpa [truthyS] using h4⟩
    simp [hprev]

theorem foldl_insertPreviewEvent_mapGet (es : List LogEvent) :
    ∀ (m : List (String × String)) (p : String),
      mapGet (es.foldl insertPreviewEvent m) p =
        (match mapGet m p with
         | some u => some u
         | none => (es.find? (isPreviewFor p)).bind (fun e => e.user)) := by
  induction es with
  | nil =>
    intro m p
    simp only [List.foldl_nil]
    cases mapGet m p <;> simp
  | cons e es ih =>
    intro m p
    rw [List.foldl_cons, ih, mapGet_insertPreviewEvent]
    by_cases hprev : isPreviewFor p e = true
    · rw [List.find?_cons_of_pos _ hprev]
      rcases hm : mapGet m p with _ | w
      · obtain ⟨u, hu⟩ : ∃ u, e.user = some u := by
          rcases hus : e.user with _ | u
          · exfalso
            simp [isPreviewFor, truthyS, hus] at hprev
          · exact ⟨u, rfl⟩
        simp [hprev, hm, hu]
      · simp [hm]
    · rw [List.find?_cons_of_neg _ hprev]
      simp [hprev]

theorem pagesFold_mapGet (pages : List PageResult) :
    ∀ (m : List (String × String)) (p : String),
      mapGet (pagesFold pages m) p =
        (match mapGet m p with
         | some u => some u
         | none => ((processedEvents pages).find? (isPreviewFor p)).bind (fun e => e.user)) := by
  induction pages with
  | nil =>
    intro m p
    have h1 : pagesFold [] m = m := rfl
    have h2 : processedEvents [] = [] := rfl
    rw [h1, h2]
    cases mapGet m p <;> simp
  | cons pg rest ih =>
    intro m p
    cases pg with
    | ok es next =>
      cases next with
      | some nxt =>
        have h1 : pagesFold (.ok es (some nxt) :: rest) m =
            pagesFold rest (es.foldl insertPreviewEvent m) := rfl
        have h2 : processedEvents (.ok es (some nxt) :: rest) = es ++ processedEvents rest := rfl
        rw [h1, ih, foldl_insertPreviewEvent_mapGet, h2, List.find?_append]
        rcases hm : mapGet m p with _ | w
        · rcases hfind : es.find? (isPreviewFor p) with _ | e'
          · simp
          · have hprev := List.find?_some hfind
            obtain ⟨u, hu⟩ : ∃ u, e'.user = some u := by
              rcases hus : e'.user with _ | u
              · exfalso
                simp [isPreviewFor, truthyS, hus] at hprev
              · exact ⟨u, rfl⟩
            simp [hu]
        · simp
      | none =>
        have h1 : pagesFold (.ok es none :: rest) m = es.foldl insertPreviewEvent m := rfl
        have h2 : processedEvents (.ok es none :: rest) = es := rfl
        rw [h1, h2, foldl_insertPreviewEvent_mapGet]
    | httpError s =>
      have h1 : pagesFold (.httpError s :: rest) m = m := rfl
      have h2 : processedEvents (.httpError s :: rest) = [] := rfl
      rw [h1, h2]
      cases mapGet m p <;> simp
    | transportError =>
      have h1 : pagesFold (.transportError :: rest) m = m := rfl
      have h2 : processedEvents (.transportError :: rest) = [] := rfl
      rw [h1, h2]
      cases mapGet m p <;> simp

/-- C4: the preview-user index builder is total over any page-response
sequence (so it never raises, and a transport failure or non-success response
merely stops pagination, keeping the partial — possibly empty — index), and
the finished index maps a path to exactly the user of the first qualifying
event of the processed feed: an event is consulted only when its route is
`preview` and both path and user are present, and the first occurrence per
path wins. -/
theorem claim_C4_preview_user_map_behaviour :
    (∀ (s : Nat) (rest : List PageResult) (m : List (String × String)),
        pagesFold (PageResult.httpError s :: rest) m = m) ∧
    (∀ (rest : List PageResult) (m : List (String × String)),
        pagesFold (PageResult.transportError :: rest) m = m) ∧
    (∀ (pages : List PageResult) (p : String),
        mapGet (buildPreviewUserMap pages) p =
          ((processedEvents pages).find? (isPreviewFor p)).bind (fun e => e.user)) := by
  refine ⟨fun s rest m => rfl, fun rest m => rfl, fun pages p => ?_⟩
  rw [buildPreviewUserMap, pagesFold_mapGet]
  simp [mapGet]

/-! ## Theorems: enrichment attribution (claim C5) -/

/-- C5: per-record attribution of `enrichEntriesWithUser`, for every user
index and optional fallback identity.  A record with a truthy `sourcePath`
whose site-relative path (the portion after the `.aem.page` host suffix)
resolves in the index to a (non-empty) user gets that user; if the lookup
fails (or finds the falsy empty string) the configured fallback is used, and
with no fallback the record is unchanged; a `sourcePath` that does not match
the URL shape is treated as "no user found" (same fallback choice, and the
function is total, so nothing is raised); a record with no (or an empty)
`sourcePath` goes straight to the fallback choice. -/
theorem claim_C5_enrichment_attribution (userMap : List (String × String))
    (fallbackUser : Option String) (e : MediaEntry) :
    (∀ sp sitePath u, e.sourcePath = some sp → extractAemPath sp = some sitePath →
        mapGet userMap sitePath = some u → u ≠ "" →
        enrichEntry userMap fallbackUser e = { e with user := some u }) ∧
    (∀ sp sitePath, e.sourcePath = some sp → extractAemPath sp = some sitePath →
        (mapGet userMap sitePath = none ∨ mapGet userMap sitePath = some "") →
        enrichEntry userMap fallbackUser e =
          (if truthyS fallbackUser = true then { e with user := fallbackUser } else e)) ∧
    (∀ sp, e.sourcePath = some sp → sp ≠ "" → extractAemPath sp = none →
        enrichEntry userMap fallbackUser e =
          (if truthyS fallbackUser = true then { e with user := fallbackUser } else e)) ∧
    ((e.sourcePath = none ∨ e.sourcePath = some "") →
        enrichEntry userMap fallbackUser e =
          (if truthyS fallbackUser = true then { e with user := fallbackUser } else e)) := by
  have hemptyPath : extractAemPath "" = none := rfl
  refine ⟨?_, ?_, ?_, ?_⟩
  · intro sp sitePath u hsp hext hget hu
    have hne : ¬sp = "" := by
      intro h
      rw [h, hemptyPath] at hext
      exact Option.noConfusion hext
    simp only [enrichEntry, hsp, if_neg hne, hext, hget, if_pos hu]
  · intro sp sitePath hsp hext hget
    have hne : ¬sp = "" := by
      intro h
      rw [h, hemptyPath] at hext
      exact Option.noConfusion hext
    rcases hget with hget | hget
    · simp only [enrichEntry, hsp, if_neg hne, hext, hget]
    · have : ¬("" : String) ≠ "" := by simp
      simp only [enrichEntry, hsp, if_neg hne, hext, hget, if_neg this]
  · intro sp hsp hne hext
    simp only [enrichEntry, hsp, if_neg hne, hext]
  · intro hsp
    rcases hsp with hsp | hsp
    · simp only [enrichEntry, hsp]
    · simp only [enrichEntry, hsp]
      simp

/-- Concrete record for the C5 witness. -/
def c5Entry : MediaEntry :=
  { path := "media_aa.png", sourcePath := some "https://main--site--acme.aem.page/about" }

/-- Witness for C5 at a concrete input: the site-relative path `/about` is
extracted and resolved in the index, so the indexed user wins over the
configured fallback. -/
theorem claim_C5_witness :
    enrichEntry [("/about", "alice")] (some "bob") c5Entry =
      { c5Entry with user := some "alice" } :=
  (claim_C5_enrichment_attribution [("/about", "alice")] (some "bob") c5Entry).1
    "https://main--site--acme.aem.page/about" "/about" "alice" rfl rfl rfl
    (by decide)

/-! ## Theorems: hash-based deduplication (claim C2) -/

/-- The content hashes extractable from a record list, in order. -/
def hashesOf (entries : List MediaEntry) : List String :=
  entries.filterMap (fun e => extractMediaHash e.path)

theorem dedupGo_length (entries : List MediaEntry) :
    ∀ seen, (dedupGo entries seen).length = entries.length := by
  induction entries with
  | nil => intro seen; simp [dedupGo]
  | cons e rest ih =>
    intro seen
    cases hh : extractMediaHash e.path with
    | some h => by_cases hmem : h ∈ seen <;> simp [dedupGo, hh, hmem, ih]
    | none => simp [dedupGo, hh, ih]

theorem mem_append_cons_of_mem (hh h : String) (seen hs : List String) (hmem : h ∈ seen) :
    (hh ∈ seen ++ hs) ↔ (hh ∈ seen ++ (h :: hs)) := by
  simp only [List.mem_append, List.mem_cons]
  constructor
  · tauto
  · rintro (h1 | rfl | h3) <;> tauto

theorem mem_cons_append_comm (hh h : String) (seen hs : List String) :
    (hh ∈ (h :: seen) ++ hs) ↔ (hh ∈ seen ++ (h :: hs)) := by
  simp only [List.cons_append, List.mem_append, List.mem_cons]
  tauto

theorem dedupGo_getElem (entries : List MediaEntry) :
    ∀ (seen : List String) (i : Nat), i < entries.length →
      (dedupGo entries seen)[i]? =
        (entries[i]?).map (fun e =>
          { e with operation := some (if (extractMediaHash e.path).any
              (fun hh => decide (hh ∈ seen ++ hashesOf (entries.take i)))
              then "reuse" else "ingest") }) := by
  induction entries with
  | nil => intro seen i hi; simp at hi
  | cons e rest ih =>
    intro seen i hi
    match i with
    | 0 =>
      cases hh : extractMediaHash e.path with
      | some h =>
        by_cases hmem : h ∈ seen <;>
          simp [dedupGo, hh, hmem, hashesOf]
      | none => simp [dedupGo, hh]
    | j + 1 =>
      have hi' : j < rest.length := by simpa using hi
      have htake : hashesOf ((e :: rest).take (j + 1)) =
          (match extractMediaHash e.path with
           | some h => h :: hashesOf (rest.take j)
           | none => hashesOf (rest.take j)) := by
        cases hh : extractMediaHash e.path <;>
          simp [hashesOf, List.take_succ_cons, List.filterMap_cons, hh]
      rw [List.getElem?_cons_succ, htake]
      cases hh : extractMediaHash e.path with
      | some h =>
        by_cases hmem : h ∈ seen
        · have hstep : (dedupGo (e :: rest) seen)[j + 1]? = (dedupGo rest seen)[j]? := by
            simp [dedupGo, hh, hmem]
          rw [hstep, ih seen j hi']
          rcases hrj : rest[j]? with _ | ej
          · simp
          · simp only [Option.map_some']
            have hcond : ((extractMediaHash ej.path).any
                  (fun x => decide (x ∈ seen ++ hashesOf (rest.take j)))) =
                ((extractMediaHash ej.path).any
                  (fun x => decide (x ∈ seen ++ (h :: hashesOf (rest.take j))))) := by
              cases hhe : extractMediaHash ej.path with
              | none => simp
              | some x =>
                simp only [Option.any_some]
                rw [decide_eq_decide]
                exact mem_append_cons_of_mem x h seen _ hmem
            rw [hcond]
        · have hstep : (dedupGo (e :: rest) seen)[j + 1]? = (dedupGo rest (h :: seen))[j]? := by
            simp [dedupGo, hh, hmem]
          rw [hstep, ih (h :: seen) j hi']
          rcases hrj : rest[j]? with _ | ej
          · simp
          · simp only [Option.map_some']
            have hcond : ((extractMediaHash ej.path).any
                  (fun x => decide (x ∈ (h :: seen) ++ hashesOf (rest.take j)))) =
                ((extractMediaHash ej.path).any
                  (fun x => decide (x ∈ seen ++ (h :: hashesOf (rest.take j))))) := by
              cases hhe : extractMediaHash ej.path with
              | none => simp
              | some x =>
                simp only [Option.any_some]
                rw [decide_eq_decide]
                exact mem_cons_append_comm x h seen _
            rw [hcond]
      | none =>
        have hstep : (dedupGo (e :: rest) seen)[j + 1]? = (dedupGo rest seen)[j]? := by
          simp [dedupGo, hh]
        rw [hstep, ih seen j hi']

theorem mem_take_iff_getElem (l : List α) :
    ∀ (i : Nat) (a : α), a ∈ l.take i ↔ ∃ j, j < i ∧ l[j]? = some a := by
  induction l with
  | nil =>
    intro i a
    simp
  | cons x xs ih =>
    intro i a
    match i with
    | 0 => simp
    | k + 1 =>
      simp only [List.take_succ_cons, List.mem_cons, ih k a]
      constructor
      · rintro (rfl | ⟨j, hj, hget⟩)
        · exact ⟨0, by omega, by simp⟩
        · exact ⟨j + 1, by omega, by simpa using hget⟩
      · rintro ⟨j, hj, hget⟩
        match j with
        | 0 =>
          left
          simp at hget
          exact hget.symm
        | j' + 1 =>
          right
          exact ⟨j', by omega, by simpa using hget⟩

/-- C2: deduplication keeps the length and classifies record `i` as `reuse`
exactly when the content hash extracted from its path (by the fixed
`media_<hex>.<ext>` naming pattern) already occurred among the hashes of
records `0..i-1`, and as `ingest` otherwise — so the first record of each
hash, and every record with no extractable hash, is first-seen, and the
remaining `k-1` bearers of a hash are `reuse`, in traversal order. -/
theorem claim_C2_dedup_classification (entries : List MediaEntry) (i : Nat)
    (hi : i < entries.length) :
    (deduplicateEntries entries).length = entries.length ∧
    (deduplicateEntries entries)[i]? =
      (entries[i]?).map (fun e =>
        { e with operation := some (if (extractMediaHash e.path).any
            (fun hh => decide (hh ∈ hashesOf (entries.take i)))
            then "reuse" else "ingest") }) ∧
    (∀ hh, hh ∈ hashesOf (entries.take i) ↔
        ∃ j, j < i ∧ ∃ ej, entries[j]? = some ej ∧ extractMediaHash ej.path = some hh) := by
  refine ⟨dedupGo_length entries [], ?_, ?_⟩
  · have h := dedupGo_getElem entries [] i hi
    simpa [deduplicateEntries] using h
  · intro hh
    rw [hashesOf, List.mem_filterMap]
    constructor
    · rintro ⟨e, hmem, hhash⟩
      obtain ⟨j, hj, hget⟩ := (mem_take_iff_getElem entries i e).mp hmem
      exact ⟨j, hj, e, hget, hhash⟩
    · rintro ⟨j, hj, ej, hget, hhash⟩
      exact ⟨ej, (mem_take_iff_getElem entries i ej).mpr ⟨j, hj, hget⟩, hhash⟩

/-- Concrete record list for the C2 witness: the hash `ab` appears at indices
0 and 2, index 1 has no extractable hash. -/
def c2Entries : List MediaEntry :=
  [{ path := "a/media_ab.png" }, { path := "plain.png" }, { path := "b/media_ab.jpg" }]

/-- Witness for C2 at a concrete input: the second bearer of hash `ab` is
classified `reuse`. -/
theorem claim_C2_witness :
    (deduplicateEntries c2Entries)[2]? =
      some { path := "b/media_ab.jpg", operation := some "reuse" } := by
  have h := (claim_C2_dedup_classification c2Entries 2 (by simp [c2Entries])).2.1
  rw [h]
  rfl

/-! ## Theorems: first-match-wins extraction (claim C3) -/

theorem addMediaFold_path_notin (su : String) :
    ∀ (reqs : List (String × String)) (seen : List String) (e : MediaEntry),
      e ∈ addMediaFold su reqs seen → e.path ∉ seen := by
  intro reqs
  induction reqs with
  | nil => intro seen e he; simp [addMediaFold] at he
  | cons r rest ih =>
    intro seen e he
    obtain ⟨p, a⟩ := r
    by_cases hp : p ∈ seen
    · simp only [addMediaFold, if_pos hp] at he
      exact ih seen e he
    · simp only [addMediaFold, if_neg hp] at he
      rcases List.mem_cons.mp he with rfl | he
      · simpa [mkAddEntry] using hp
      · have hnotin := ih (p :: seen) e he
        intro hcontra
        exact hnotin (List.mem_cons_of_mem _ hcontra)

theorem addMediaFold_paths_nodup (su : String) :
    ∀ (reqs : List (String × String)) (seen : List String),
      ((addMediaFold su reqs seen).map (fun e => e.path)).Nodup := by
  intro reqs
  induction reqs with
  | nil => intro seen; simp [addMediaFold]
  | cons r rest ih =>
    intro seen
    obtain ⟨p, a⟩ := r
    by_cases hp : p ∈ seen
    · simp only [addMediaFold, if_pos hp]
      exact ih seen
    · simp only [addMediaFold, if_neg hp, List.map_cons, List.nodup_cons]
      refine ⟨?_, ih (p :: seen)⟩
      intro hmem
      simp only [List.mem_map] at hmem
      obtain ⟨e, he, hpe⟩ := hmem
      have hnotin := addMediaFold_path_notin su rest (p :: seen) e he
      simp only [mkAddEntry] at hpe
      exact hnotin (hpe ▸ List.mem_cons_self p seen)

theorem addMediaFold_first (su : String) :
    ∀ (reqs : List (String × String)) (seen : List String) (e : MediaEntry),
      e ∈ addMediaFold su reqs seen →
      ∃ a, reqs.find? (fun r => r.1 == e.path) = some (e.path, a) ∧
        e = mkAddEntry su e.path a := by
  intro reqs
  induction reqs with
  | nil => intro seen e he; simp [addMediaFold] at he
  | cons r rest ih =>
    intro seen e he
    obtain ⟨p, a⟩ := r
    by_cases hp : p ∈ seen
    · simp only [addMediaFold, if_pos hp] at he
      obtain ⟨a', hfind, heq⟩ := ih seen e he
      have hnotin := addMediaFold_path_notin su rest seen e he
      have hbeq : (p == e.path) = false := by
        simp only [beq_eq_false_iff_ne, ne_eq]
        intro hcontra
        exact hnotin (hcontra ▸ hp)
      refine ⟨a', ?_, heq⟩
      simp [List.find?_cons, hbeq, hfind]
    · simp only [addMediaFold, if_neg hp] at he
      rcases List.mem_cons.mp he with rfl | he
      · refine ⟨a, ?_, by simp [mkAddEntry]⟩
        simp [List.find?_cons, mkAddEntry]
      · obtain ⟨a', hfind, heq⟩ := ih (p :: seen) e he
        have hnotin := addMediaFold_path_notin su rest (p :: seen) e he
        have hbeq : (p == e.path) = false := by
          simp only [beq_eq_false_iff_ne, ne_eq]
          intro hcontra
          exact hnotin (hcontra ▸ List.mem_cons_self p seen)
        refine ⟨a', ?_, heq⟩
        simp [List.find?_cons, hbeq, hfind]

theorem addMediaFold_complete (su : String) :
    ∀ (reqs : List (String × String)) (seen : List String) (p a : String),
      (p, a) ∈ reqs → p ∉ seen →
      ∃ e, e ∈ addMediaFold su reqs seen ∧ e.path = p := by
  intro reqs
  induction reqs with
  | nil => intro seen p a h _; simp at h
  | cons r rest ih =>
    intro seen p a hmem hp
    obtain ⟨q, b⟩ := r
    by_cases hq : q ∈ seen
    · simp only [addMediaFold, if_pos hq]
      rcases List.mem_cons.mp hmem with heq | hmem'
      · exfalso
        have hpq : p = q := by injection heq with h1 _
        exact hp (hpq ▸ hq)
      · exact ih seen p a hmem' hp
    · simp only [addMediaFold, if_neg hq]
      by_cases hpq : p = q
      · subst hpq
        exact ⟨mkAddEntry su p b, List.mem_cons_self _ _, by simp [mkAddEntry]⟩
      · rcases List.mem_cons.mp hmem with heq | hmem'
        · exfalso
          have : p = q := by injection heq with h1 _
          exact hpq this
        · obtain ⟨e, he, hep⟩ := ih (q :: seen) p a hmem' (by
            intro hcontra
            rcases List.mem_cons.mp hcontra with h1 | h1
            · exact hpq h1
            · exact hp h1)
          exact ⟨e, List.mem_cons_of_mem _ he, hep⟩

/-- C3: for every markdown document, extraction emits at most one record per
distinct resolved URL: the emitted paths are duplicate-free; every emitted
record is built by `addMedia` from the first request for its URL in the
precedence-ordered request stream (so a URL introduced once inline and again
via reference indirection keeps the first resolution's alt text); and every
requested URL is emitted once. -/
theorem claim_C3_first_match_wins (markdown sourcePath org repo ref : String) :
    ((extractMediaReferences markdown sourcePath org repo ref).map
        (fun e => e.path)).Nodup ∧
    (∀ e, e ∈ extractMediaReferences markdown sourcePath org repo ref →
      ∃ a, (extractionRequests markdown.data).find? (fun r => r.1 == e.path) =
          some (e.path, a) ∧
        e = mkAddEntry (sourceUrlFor org repo ref sourcePath) e.path a) ∧
    (∀ p a, (p, a) ∈ extractionRequests markdown.data →
      ∃ e, e ∈ extractMediaReferences markdown sourcePath org repo ref ∧ e.path = p) := by
  refine ⟨addMediaFold_paths_nodup _ _ [], ?_, ?_⟩
  · intro e he
    exact addMediaFold_first _ _ [] e he
  · intro p a hmem
    exact addMediaFold_complete _ _ [] p a hmem (by simp)

/-- Markdown document for the C3 witness: `u.png` is introduced inline with
alt `A` and again through reference indirection with title `T`. -/
def c3Markdown : String := "![A](u.png)\n![B][r]\n\n[r]: u.png \"T\""

/-- The single record the C3 witness document produces. -/
def c3Entry : MediaEntry :=
  mkAddEntry (sourceUrlFor "o" "r" "main" "/p") "u.png" "A"

/-- Witness for C3 at a concrete input: the emitted record for `u.png` stems
from the first (inline) request and keeps its alt text `A`. -/
theorem claim_C3_witness :
    ∃ a, (extractionRequests c3Markdown.data).find?
        (fun r => r.1 == c3Entry.path) = some (c3Entry.path, a) ∧
      c3Entry = mkAddEntry (sourceUrlFor "o" "r" "main" "/p") c3Entry.path a :=
  (claim_C3_first_match_wins c3Markdown "/p" "o" "r" "main").2.1 c3Entry (by decide)

/-! ## Theorems: plain-link stage classification (claim C9) -/

theorem hasSub_iff (needle : List Char) :
    ∀ hay : List Char,
      hasSub needle hay = true ↔ ∃ i, needle.isPrefixOf (hay.drop i) = true := by
  intro hay
  induction hay with
  | nil =>
    simp only [hasSub]
    constructor
    · intro h
      exact ⟨0, by simpa using h⟩
    · rintro ⟨i, hi⟩
      simpa using hi
  | cons c t ih =>
    simp only [hasSub, Bool.or_eq_true, ih]
    constructor
    · rintro (h | ⟨i, hi⟩)
      · exact ⟨0, by simpa using h⟩
      · exact ⟨i + 1, by simpa using hi⟩
    · rintro ⟨i, hi⟩
      match i with
      | 0 => exact Or.inl (by simpa using hi)
      | j + 1 => exact Or.inr ⟨j, by simpa using hi⟩

theorem isNonImageMedia_iff (url : String) :
    isNonImageMedia url = true ↔
      ∃ ext ∈ videoExtensionList ++ docExtensionList,
        ∃ i, ext.data.isPrefixOf ((jsToLower url).data.drop i) = true := by
  simp only [isNonImageMedia, Bool.or_eq_true, List.any_eq_true, List.mem_append]
  constructor
  · rintro (⟨ext, hm, hs⟩ | ⟨ext, hm, hs⟩)
    · exact ⟨ext, Or.inl hm, (hasSub_iff _ _).mp hs⟩
    · exact ⟨ext, Or.inr hm, (hasSub_iff _ _).mp hs⟩
  · rintro ⟨ext, hm | hm, hs⟩
    · exact Or.inl ⟨ext, hm, (hasSub_iff _ _).mpr hs⟩
    · exact Or.inr ⟨ext, hm, (hasSub_iff _ _).mpr hs⟩

/-- C9: a plain-link match forwards its url to `addMedia` exactly when
`isNonImageMedia` holds of it, and `isNonImageMedia` holds exactly when the
lowercased url contains one of the video or document extensions as a
substring anywhere (not only as a suffix); urls matching only image
extensions, and non-media urls, contain none of them and are ignored at this
stage. -/
theorem claim_C9_link_stage_classification (markdown url : String) :
    ((∃ a, (url, a) ∈ linkRequests markdown.data) ↔
      ((∃ m ∈ scanLinks markdown.data, m.2.1 = url) ∧ isNonImageMedia url = true)) ∧
    (isNonImageMedia url = true ↔
      ∃ ext ∈ videoExtensionList ++ docExtensionList,
        ∃ i, ext.data.isPrefixOf ((jsToLower url).data.drop i) = true) := by
  refine ⟨?_, isNonImageMedia_iff url⟩
  simp only [linkRequests, List.mem_filterMap]
  constructor
  · rintro ⟨a, m, hm, hf⟩
    by_cases hni : isNonImageMedia m.2.1 = true
    · rw [if_pos hni] at hf
      have hpair : (m.2.1, "") = (url, a) := by injection hf
      have hurl : m.2.1 = url := congrArg Prod.fst hpair
      exact ⟨⟨m, hm, hurl⟩, hurl ▸ hni⟩
    · rw [if_neg hni] at hf
      exact absurd hf (by simp)
  · rintro ⟨⟨m, hm, hurl⟩, hni⟩
    refine ⟨"", m, hm, ?_⟩
    rw [if_pos (hurl ▸ hni : isNonImageMedia m.2.1 = true), hurl]

/-! ## Theorems: end-to-end extraction scenario (claim C8) -/

/-- The C8 scenario document. -/
def c8Markdown : String :=
  "![Product shot](img/p1_abc123.png \"Main\")\n[spec sheet](docs/spec.pdf)"

/-- C8: extracting the two-line scenario document against source page
`/products/x` and any site context yields exactly two records: the image
`img/p1_abc123.png` with alt `Main` (title preferred over bracket text) and
the document `docs/spec.pdf` with no alt, both carrying the fully qualified
source url built from the site context and `/products/x`. -/
theorem claim_C8_end_to_end (org repo ref : String) :
    extractMediaReferences c8Markdown "/products/x" org repo ref =
      [{ action := some "add", path := "img/p1_abc123.png",
         sourcePath := some (sourceUrlFor org repo ref "/products/x"),
         alt := some "Main" },
       { action := some "add", path := "docs/spec.pdf",
         sourcePath := some (sourceUrlFor org repo ref "/products/x"),
         alt := none }] := by
  rfl

end MediaLogIngestor
